import Mathlib

/-!
Verification development for the STORM trading-simulation repository.

The repository ships a constant-product AMM, a phase-cycling simulation
orchestrator and a versioned state cache behind a Next.js UI.  The AMM
engine, orchestrator and cache implementations are specified in the
design document; this file embeds them together with the UI helpers
(personality-distribution normalization, log buffering, avatar initials)
and proves the documented properties about the embedding.

All reserve and price arithmetic is carried out over `ℚ`, matching the
numeric policy "fixed-point or arbitrary-precision decimals, never
binary floating point".
-/

set_option maxHeartbeats 1000000

namespace Storm

/-! ### The AMM engine (pricing and commit) -/

/-- Trade direction: `buy` spends base units for tokens, `sell` the reverse. -/
inductive Direction where
  | buy
  | sell
deriving DecidableEq, Repr

/-- Modelled from the spec: the in-memory pool state of the AMM
(`PoolState` in the schema; the mutating engine itself is not under
`src/`).  Only the fields the verified properties speak about are kept:
reserves, the recorded invariant, the derived price and the mutation
version counter. -/
structure PoolState where
  baseReserve : ℚ
  tokenReserve : ℚ
  invariantK : ℚ
  currentPrice : ℚ
  version : ℕ
deriving DecidableEq, Repr

/-- The single per-trade error of the AMM engine. -/
inductive AmmError where
  | insufficientLiquidity
deriving DecidableEq, Repr

/-- The reserve a trade pays out of: tokens for a buy, base for a sell. -/
def oppositeReserve (pool : PoolState) : Direction → ℚ
  | .buy => pool.tokenReserve
  | .sell => pool.baseReserve

/-- The reserve a trade pays into: base for a buy, tokens for a sell. -/
def sameReserve (pool : PoolState) : Direction → ℚ
  | .buy => pool.baseReserve
  | .sell => pool.tokenReserve

/-- Modelled from the spec: the input amount after explicit fee
deduction, `inputAmount * (1 - feeRate)`. -/
def inputAfterFee (feeRate input : ℚ) : ℚ :=
  input * (1 - feeRate)

/-- Modelled from the spec: raw constant-product output,
`outputAmount = tokenReserve - invariantK / (baseReserve + inputAmount_after_fee)`,
symmetric for the reverse direction. -/
def rawOutput (feeRate : ℚ) (d : Direction) (input : ℚ) (pool : PoolState) : ℚ :=
  match d with
  | .buy => pool.tokenReserve - pool.invariantK / (pool.baseReserve + inputAfterFee feeRate input)
  | .sell => pool.baseReserve - pool.invariantK / (pool.tokenReserve + inputAfterFee feeRate input)

/-- Modelled from the spec: a quote is rejected with
`InsufficientLiquidity` exactly when the input is non-positive or the
computed output would exceed the opposite reserve. -/
def quoteRejected (feeRate : ℚ) (d : Direction) (input : ℚ) (pool : PoolState) : Prop :=
  input ≤ 0 ∨ oppositeReserve pool d < rawOutput feeRate d input pool

instance (feeRate : ℚ) (d : Direction) (input : ℚ) (pool : PoolState) :
    Decidable (quoteRejected feeRate d input pool) :=
  inferInstanceAs (Decidable (_ ∨ _))

/-- The result of a successful quote: output, fractional price impact
and the explicit fee charged. -/
structure Quote where
  outputAmount : ℚ
  priceImpact : ℚ
  fee : ℚ
deriving DecidableEq, Repr

/-- Spot exchange rate quoted in output units per input unit for the
given direction. -/
def spotRate (pool : PoolState) (d : Direction) : ℚ :=
  oppositeReserve pool d / sameReserve pool d

/-- Modelled from the spec: fractional deviation of the execution rate
`outputAmount / inputAmount` from the spot rate. -/
def priceImpactOf (pool : PoolState) (d : Direction) (input output : ℚ) : ℚ :=
  (spotRate pool d - output / input) / spotRate pool d

/-- Modelled from the spec: `quote(direction, inputAmount, pool)`
computes the constant-product output, price impact and fee, or fails
with `InsufficientLiquidity`. -/
def quote (feeRate : ℚ) (d : Direction) (input : ℚ) (pool : PoolState) :
    Except AmmError Quote :=
  if quoteRejected feeRate d input pool then
    .error .insufficientLiquidity
  else
    .ok ⟨rawOutput feeRate d input pool,
         priceImpactOf pool d input (rawOutput feeRate d input pool),
         input * feeRate⟩

/-- An immutable record of one executed trade. -/
structure TradeRecord where
  direction : Direction
  inputAmount : ℚ
  outputAmount : ℚ
  priceImpact : ℚ
  feeAmount : ℚ
deriving DecidableEq, Repr

/-- Modelled from the spec: `commit(direction, inputAmount, pool)`
re-validates the quote against the current pool snapshot, applies the
reserve update (the after-fee input enters the paying reserve, the
output leaves the opposite one), recomputes
`currentPrice = baseReserve / tokenReserve`, bumps `version` and
returns the new pool together with the `TradeRecord`. -/
def commit (feeRate : ℚ) (d : Direction) (input : ℚ) (pool : PoolState) :
    Except AmmError (PoolState × TradeRecord) :=
  if quoteRejected feeRate d input pool then
    .error .insufficientLiquidity
  else
    let out := rawOutput feeRate d input pool
    let a := inputAfterFee feeRate input
    let newBase := match d with
      | .buy => pool.baseReserve + a
      | .sell => pool.baseReserve - out
    let newTok := match d with
      | .buy => pool.tokenReserve - out
      | .sell => pool.tokenReserve + a
    .ok ({ baseReserve := newBase
           tokenReserve := newTok
           invariantK := pool.invariantK
           currentPrice := newBase / newTok
           version := pool.version + 1 },
         ⟨d, input, out, priceImpactOf pool d input out, input * feeRate⟩)

/-- A pool snapshot is valid when its reserves are positive, the
recorded invariant equals the product of the reserves and the derived
price agrees with the reserves. -/
abbrev ValidPool (pool : PoolState) : Prop :=
  0 < pool.baseReserve ∧ 0 < pool.tokenReserve ∧
    pool.invariantK = pool.baseReserve * pool.tokenReserve ∧
    pool.currentPrice = pool.baseReserve / pool.tokenReserve

/-- Apply one attempted trade: a rejected trade leaves the pool
unchanged (rejection is per-trade, not fatal). -/
def applyTrade (feeRate : ℚ) (pool : PoolState) (t : Direction × ℚ) : PoolState :=
  match commit feeRate t.1 t.2 pool with
  | .ok (p, _) => p
  | .error _ => pool

/-- Apply a whole sequence of attempted trades in order. -/
def applyTrades (feeRate : ℚ) (pool : PoolState) (ts : List (Direction × ℚ)) : PoolState :=
  ts.foldl (applyTrade feeRate) pool

/-- A concrete test pool: 100 base units against 100000 tokens, so
`k = 10,000,000`. -/
def p100 : PoolState :=
  { baseReserve := 100
    tokenReserve := 100000
    invariantK := 10000000
    currentPrice := 1 / 1000
    version := 1 }

/-! ### The phase orchestrator state machine -/

/-- The four simulation phases, in their cyclic order. -/
inductive Phase where
  | marketAnalysis
  | social
  | trading
  | reporting
deriving DecidableEq, Repr

/-- The successor of a phase in the cycle
`MarketAnalysis → Social → Trading → Reporting → MarketAnalysis`. -/
def nextPhase : Phase → Phase
  | .marketAnalysis => .social
  | .social => .trading
  | .trading => .reporting
  | .reporting => .marketAnalysis

/-- Orchestrator status (`Simulation.status` in the schema). -/
inductive Status where
  | stopped
  | running
  | paused
  | error
deriving DecidableEq, Repr

/-- Modelled from the spec: the single active `SimulationRun` owned by
the phase orchestrator (the orchestrator implementation is not under
`src/`).  `phaseElapsed` is the elapsed-but-not-expired time in the
current phase, in timer ticks. -/
structure SimulationRun where
  status : Status
  currentPhase : Phase
  phaseElapsed : ℕ
  speedMultiplier : ℚ
deriving DecidableEq, Repr

/-- Commands accepted by the orchestrator state machine. -/
inductive Command where
  | start (speed : ℚ)
  | tick (dt : ℕ)
  | advancePhase
  | pause
  | resume
  | stop
  | setSpeed (m : ℚ)
  | fail
deriving DecidableEq, Repr

/-- Modelled from the spec: one orchestrator transition.  `start` is
valid only from `Stopped`; the phase advances only to `nextPhase` and
only while `Running`; `pause` freezes the phase timer; `resume` is
valid only from `Paused` and changes nothing but the status; `stop` is
valid from any non-`Stopped` state; `fail` is the unrecoverable-failure
transition into `Error`. -/
def step (s : SimulationRun) : Command → SimulationRun
  | .start speed =>
    if s.status = .stopped then
      { status := .running
        currentPhase := .marketAnalysis
        phaseElapsed := 0
        speedMultiplier := speed }
    else s
  | .tick dt =>
    if s.status = .running then { s with phaseElapsed := s.phaseElapsed + dt } else s
  | .advancePhase =>
    if s.status = .running then
      { s with currentPhase := nextPhase s.currentPhase, phaseElapsed := 0 }
    else s
  | .pause =>
    if s.status = .running then { s with status := .paused } else s
  | .resume =>
    if s.status = .paused then { s with status := .running } else s
  | .stop =>
    if s.status = .stopped then s else { s with status := .stopped }
  | .setSpeed m =>
    if 0 < m ∧ s.status ≠ .stopped then { s with speedMultiplier := m } else s
  | .fail =>
    if s.status = .running then { s with status := .error } else s

/-- Modelled from the spec: handing one trade decision to the AMM engine
during a run.  A committed trade replaces the pool; an
`InsufficientLiquidity` rejection drops that single trade, leaving both
the run and the pool untouched (it is not fatal). -/
def processTrade (feeRate : ℚ) (run : SimulationRun) (pool : PoolState)
    (d : Direction) (input : ℚ) : SimulationRun × PoolState :=
  match commit feeRate d input pool with
  | .ok (p, _) => (run, p)
  | .error .insufficientLiquidity => (run, pool)

/-- A concrete running simulation, mid-way through the `Social` phase. -/
def run0 : SimulationRun :=
  { status := .running
    currentPhase := .social
    phaseElapsed := 1234
    speedMultiplier := 1 }

/-! ### The versioned state cache -/

/-- A cache entry: the cached value together with the backing-store
version it was computed at and its TTL expiry instant. -/
structure CacheEntry (α : Type) where
  value : α
  version : ℕ
  expiresAt : ℕ
deriving DecidableEq, Repr

/-- The authoritative backing store behind a cache key: current data
and the version counter bumped on every mutation. -/
structure BackingStore (α : Type) where
  data : α
  version : ℕ
deriving DecidableEq, Repr

/-- Modelled from the spec: `get(key)` of the read-through state cache
(the cache implementation is not under `src/`; the schema only declares
the `Cache` table).  Returns the cached value only if the TTL has not
expired AND the cached version matches the backing store version;
otherwise recomputes from the backing store and stores it with a fresh
TTL. -/
def cacheGet {α : Type} (now ttl : ℕ) (store : BackingStore α)
    (cached : Option (CacheEntry α)) : α × CacheEntry α :=
  match cached with
  | some e =>
    if now < e.expiresAt ∧ e.version = store.version then
      (e.value, e)
    else
      (store.data, ⟨store.data, store.version, now + ttl⟩)
  | none => (store.data, ⟨store.data, store.version, now + ttl⟩)

/-! ### UI helpers under `src/` -/

/-- The five personality classes of the control surface
(`SimulationControls.tsx`). -/
structure PersonalityDistribution where
  conservative : ℚ
  moderate : ℚ
  aggressive : ℚ
  trendFollower : ℚ
  contrarian : ℚ
deriving DecidableEq, Repr

/-- The total raw weight of a personality distribution. -/
def totalWeight (d : PersonalityDistribution) : ℚ :=
  d.conservative + d.moderate + d.aggressive + d.trendFollower + d.contrarian

/-- `getNormalizedDistribution` from `SimulationControls.tsx`: every raw
weight is divided by the total of all weights. -/
def getNormalizedDistribution (d : PersonalityDistribution) : PersonalityDistribution :=
  { conservative := d.conservative / totalWeight d
    moderate := d.moderate / totalWeight d
    aggressive := d.aggressive / totalWeight d
    trendFollower := d.trendFollower / totalWeight d
    contrarian := d.contrarian / totalWeight d }

/-- The default distribution the control surface starts from:
20 / 30 / 20 / 15 / 15. -/
def defaultDistribution : PersonalityDistribution :=
  ⟨20, 30, 20, 15, 15⟩

/-- One entry of the client-side simulation log list. -/
structure LogEntry where
  timestamp : ℕ
  level : String
  message : String
deriving DecidableEq, Repr

/-- `addLog` from `SimulationControls.tsx`: the new entry is placed at
the front and only the first 99 previous entries are retained
(`prev.slice(0, 99)`). -/
def addLog (e : LogEntry) (prev : List LogEntry) : List LogEntry :=
  e :: prev.take 99

/-- Splitting a character sequence at every separator character, with
the semantics of JavaScript `String.prototype.split`: consecutive
separators produce empty parts and the empty string splits to one empty
part. -/
def splitChars (p : Char → Bool) : List Char → List (List Char)
  | [] => [[]]
  | c :: rest =>
    match splitChars p rest with
    | [] => [[]]
    | w :: ws => if p c then [] :: w :: ws else (c :: w) :: ws

/-- `getInitials` from the `AgentAvatar` component: split the name on
the space character, keep the first character of every part (an empty
part contributes nothing, as `part[0]` is `undefined` and `join` drops
it), join, uppercase, and truncate to two characters. -/
def getInitials (name : List Char) : List Char :=
  (((splitChars (fun c => c = ' ') name).map (fun w => w.take 1)).flatten.map
    Char.toUpper).take 2

/-- The claim's reading of `getInitials`, written from the claim's own
words: the first character of each WHITESPACE-separated word of the
name, concatenated, uppercased and truncated to length 2. -/
def initialsOfWhitespaceWords (name : List Char) : List Char :=
  (((splitChars Char.isWhitespace name).map (fun w => w.take 1)).flatten.map
    Char.toUpper).take 2

/-- The amended reading: identical, except that words are separated by
the space character only, which is what `name.split(' ')` does. -/
def initialsOfSpaceWords (name : List Char) : List Char :=
  (((splitChars (fun c => c = ' ') name).map (fun w => w.take 1)).flatten.map
    Char.toUpper).take 2

/-! ## AMM lemmas -/

theorem not_quoteRejected_iff {feeRate : ℚ} {d : Direction} {input : ℚ} {pool : PoolState} :
    ¬ quoteRejected feeRate d input pool ↔
      0 < input ∧ rawOutput feeRate d input pool ≤ oppositeReserve pool d := by
  rw [quoteRejected, not_or, not_le, not_lt]

theorem commit_rejected_eq {feeRate : ℚ} {d : Direction} {input : ℚ} {pool : PoolState}
    (h : quoteRejected feeRate d input pool) :
    commit feeRate d input pool = .error .insufficientLiquidity := by
  rw [commit, if_pos h]

theorem commit_buy_eq {feeRate input : ℚ} {pool : PoolState}
    (h : ¬ quoteRejected feeRate .buy input pool) :
    commit feeRate .buy input pool = .ok
      ({ baseReserve := pool.baseReserve + inputAfterFee feeRate input
         tokenReserve := pool.tokenReserve - rawOutput feeRate .buy input pool
         invariantK := pool.invariantK
         currentPrice := (pool.baseReserve + inputAfterFee feeRate input) /
           (pool.tokenReserve - rawOutput feeRate .buy input pool)
         version := pool.version + 1 },
       ⟨.buy, input, rawOutput feeRate .buy input pool,
        priceImpactOf pool .buy input (rawOutput feeRate .buy input pool),
        input * feeRate⟩) := by
  rw [commit, if_neg h]

theorem commit_sell_eq {feeRate input : ℚ} {pool : PoolState}
    (h : ¬ quoteRejected feeRate .sell input pool) :
    commit feeRate .sell input pool = .ok
      ({ baseReserve := pool.baseReserve - rawOutput feeRate .sell input pool
         tokenReserve := pool.tokenReserve + inputAfterFee feeRate input
         invariantK := pool.invariantK
         currentPrice := (pool.baseReserve - rawOutput feeRate .sell input pool) /
           (pool.tokenReserve + inputAfterFee feeRate input)
         version := pool.version + 1 },
       ⟨.sell, input, rawOutput feeRate .sell input pool,
        priceImpactOf pool .sell input (rawOutput feeRate .sell input pool),
        input * feeRate⟩) := by
  rw [commit, if_neg h]

theorem applyTrade_valid {feeRate : ℚ} (hf0 : 0 ≤ feeRate) (hf1 : feeRate ≤ 1)
    {pool : PoolState} (hp : ValidPool pool) (t : Direction × ℚ) :
    ValidPool (applyTrade feeRate pool t) ∧
      (applyTrade feeRate pool t).invariantK = pool.invariantK := by
  obtain ⟨d, input⟩ := t
  obtain ⟨hb, ht, hk, hpr⟩ := hp
  by_cases hrej : quoteRejected feeRate d input pool
  · simp only [applyTrade, commit_rejected_eq hrej]
    exact ⟨⟨hb, ht, hk, hpr⟩, trivial⟩
  · obtain ⟨hin, -⟩ := not_quoteRejected_iff.mp hrej
    have ha : 0 ≤ inputAfterFee feeRate input := by
      unfold inputAfterFee
      have h1 : 0 ≤ 1 - feeRate := by linarith
      exact mul_nonneg (le_of_lt hin) h1
    have hkpos : 0 < pool.invariantK := by rw [hk]; exact mul_pos hb ht
    cases d with
    | buy =>
      simp only [applyTrade, commit_buy_eq hrej]
      have hba : 0 < pool.baseReserve + inputAfterFee feeRate input := by linarith
      have htr : pool.tokenReserve - rawOutput feeRate .buy input pool =
          pool.invariantK / (pool.baseReserve + inputAfterFee feeRate input) := by
        unfold rawOutput; ring
      have htok : 0 < pool.tokenReserve - rawOutput feeRate .buy input pool := by
        rw [htr]; exact div_pos hkpos hba
      have hprod : (pool.baseReserve + inputAfterFee feeRate input) *
          (pool.tokenReserve - rawOutput feeRate .buy input pool) = pool.invariantK := by
        rw [htr, ← mul_div_assoc, mul_div_cancel_left₀ _ (ne_of_gt hba)]
      exact ⟨⟨hba, htok, hprod.symm, rfl⟩, trivial⟩
    | sell =>
      simp only [applyTrade, commit_sell_eq hrej]
      have hta : 0 < pool.tokenReserve + inputAfterFee feeRate input := by linarith
      have hbr : pool.baseReserve - rawOutput feeRate .sell input pool =
          pool.invariantK / (pool.tokenReserve + inputAfterFee feeRate input) := by
        unfold rawOutput; ring
      have hbase : 0 < pool.baseReserve - rawOutput feeRate .sell input pool := by
        rw [hbr]; exact div_pos hkpos hta
      have hprod : (pool.baseReserve - rawOutput feeRate .sell input pool) *
          (pool.tokenReserve + inputAfterFee feeRate input) = pool.invariantK := by
        rw [hbr, div_mul_cancel₀ _ (ne_of_gt hta)]
      exact ⟨⟨hbase, hta, hprod.symm, rfl⟩, trivial⟩

theorem applyTrades_valid {feeRate : ℚ} (hf0 : 0 ≤ feeRate) (hf1 : feeRate ≤ 1)
    (ts : List (Direction × ℚ)) :
    ∀ pool : PoolState, ValidPool pool →
      ValidPool (applyTrades feeRate pool ts) ∧
        (applyTrades feeRate pool ts).invariantK = pool.invariantK := by
  induction ts with
  | nil => exact fun pool hp => ⟨hp, rfl⟩
  | cons t ts ih =>
    intro pool hp
    obtain ⟨h1, h2⟩ := applyTrade_valid hf0 hf1 hp t
    obtain ⟨h3, h4⟩ := ih _ h1
    refine ⟨h3, ?_⟩
    calc (applyTrades feeRate pool (t :: ts)).invariantK
        = (applyTrades feeRate (applyTrade feeRate pool t) ts).invariantK := rfl
      _ = (applyTrade feeRate pool t).invariantK := h4
      _ = pool.invariantK := h2

/-- C1: for every sequence of committed swaps starting from a valid
pool, the invariant is preserved: `invariantK` recorded before the
first trade equals `baseReserve * tokenReserve` recomputed after every
subsequent commit — exactly, so in particular never below the recorded
invariant (rounding never moves value away from the pool). -/
theorem c1_invariant_preserved (feeRate : ℚ) (hf0 : 0 ≤ feeRate) (hf1 : feeRate ≤ 1)
    (pool : PoolState) (hp : ValidPool pool) (ts : List (Direction × ℚ)) :
    (applyTrades feeRate pool ts).invariantK = pool.invariantK ∧
    (applyTrades feeRate pool ts).baseReserve * (applyTrades feeRate pool ts).tokenReserve
      = pool.invariantK ∧
    pool.invariantK ≤
      (applyTrades feeRate pool ts).baseReserve * (applyTrades feeRate pool ts).tokenReserve := by
  obtain ⟨⟨-, -, hk, -⟩, hkeq⟩ := applyTrades_valid hf0 hf1 ts pool hp
  refine ⟨hkeq, ?_, ?_⟩
  · rw [← hk, hkeq]
  · rw [← hk, hkeq]

/-- A tiny valid pool with unit reserves, used to witness the general
theorems at a concrete state. -/
theorem c1_witness :
    (0:ℚ) ≤ 0 ∧ (0:ℚ) ≤ 1 ∧
    ValidPool ⟨1, 1, 1, 1, 0⟩ ∧
    (applyTrades 0 ⟨1, 1, 1, 1, 0⟩ [(Direction.buy, 1), (Direction.sell, 1)]).baseReserve *
      (applyTrades 0 ⟨1, 1, 1, 1, 0⟩ [(Direction.buy, 1), (Direction.sell, 1)]).tokenReserve
      = (1 : ℚ) := by
  have h0 : (0:ℚ) ≤ 0 := le_refl 0
  have h1 : (0:ℚ) ≤ 1 := by simp
  have hp : ValidPool ⟨1, 1, 1, 1, 0⟩ := by simp
  exact ⟨h0, h1, hp,
    (c1_invariant_preserved 0 h0 h1 ⟨1, 1, 1, 1, 0⟩ hp
      [(Direction.buy, 1), (Direction.sell, 1)]).2.1⟩

/-- C2: on the pool with `baseReserve = 100`, `tokenReserve = 100000`
(`k = 10,000,000`) and a `0%` fee, a buy of `10` base units outputs
`100000 - 10000000 / 110` tokens, and the post-trade pool holds
`baseReserve = 110`, `tokenReserve = 1000000 / 11`, whose product is
exactly the original `k`. -/
theorem c2_concrete_buy_scenario :
    (quote 0 Direction.buy 10 p100).map Quote.outputAmount =
      Except.ok ((100000 : ℚ) - 10000000 / 110) ∧
    (applyTrade 0 p100 (Direction.buy, 10)).baseReserve = 110 ∧
    (applyTrade 0 p100 (Direction.buy, 10)).tokenReserve = 1000000 / 11 ∧
    (applyTrade 0 p100 (Direction.buy, 10)).baseReserve *
      (applyTrade 0 p100 (Direction.buy, 10)).tokenReserve = p100.invariantK := by
  have hrej : ¬ quoteRejected 0 Direction.buy 10 p100 := by
    rw [not_quoteRejected_iff]
    refine ⟨by norm_num, ?_⟩
    show rawOutput 0 Direction.buy 10 p100 ≤ oppositeReserve p100 Direction.buy
    simp only [rawOutput, inputAfterFee, oppositeReserve, p100]
    norm_num
  refine ⟨?_, ?_, ?_, ?_⟩
  · rw [quote, if_neg hrej]
    simp only [Except.map, Except.ok.injEq, rawOutput, inputAfterFee, p100]
    norm_num
  · simp only [applyTrade, commit_buy_eq hrej]
    norm_num [p100, inputAfterFee]
  · simp only [applyTrade, commit_buy_eq hrej]
    norm_num [p100, inputAfterFee, rawOutput]
  · simp only [applyTrade, commit_buy_eq hrej]
    norm_num [p100, inputAfterFee, rawOutput]

/-- C3: with a valid pool, a fee rate below 100% and a strictly
positive input, a buy commits successfully and strictly increases
`currentPrice` (base per token), and a sell commits successfully and
strictly decreases it. -/
theorem c3_buy_raises_sell_lowers_price (feeRate input : ℚ) (pool : PoolState)
    (hf0 : 0 ≤ feeRate) (hf1 : feeRate < 1) (hp : ValidPool pool) (hin : 0 < input) :
    (commit feeRate Direction.buy input pool).isOk = true ∧
    (commit feeRate Direction.sell input pool).isOk = true ∧
    pool.currentPrice < (applyTrade feeRate pool (Direction.buy, input)).currentPrice ∧
    (applyTrade feeRate pool (Direction.sell, input)).currentPrice < pool.currentPrice := by
  obtain ⟨hb, ht, hk, hpr⟩ := hp
  have hkpos : 0 < pool.invariantK := by rw [hk]; exact mul_pos hb ht
  have ha : 0 < inputAfterFee feeRate input := by
    unfold inputAfterFee
    have h1 : 0 < 1 - feeRate := by linarith
    exact mul_pos hin h1
  have hba : 0 < pool.baseReserve + inputAfterFee feeRate input := by linarith
  have hta : 0 < pool.tokenReserve + inputAfterFee feeRate input := by linarith
  have hrejb : ¬ quoteRejected feeRate Direction.buy input pool := by
    rw [not_quoteRejected_iff]
    refine ⟨hin, ?_⟩
    show rawOutput feeRate Direction.buy input pool ≤ pool.tokenReserve
    unfold rawOutput
    have hdiv : 0 < pool.invariantK / (pool.baseReserve + inputAfterFee feeRate input) :=
      div_pos hkpos hba
    linarith
  have hrejs : ¬ quoteRejected feeRate Direction.sell input pool := by
    rw [not_quoteRejected_iff]
    refine ⟨hin, ?_⟩
    show rawOutput feeRate Direction.sell input pool ≤ pool.baseReserve
    unfold rawOutput
    have hdiv : 0 < pool.invariantK / (pool.tokenReserve + inputAfterFee feeRate input) :=
      div_pos hkpos hta
    linarith
  refine ⟨?_, ?_, ?_, ?_⟩
  · rw [commit, if_neg hrejb]; rfl
  · rw [commit, if_neg hrejs]; rfl
  · simp only [applyTrade, commit_buy_eq hrejb]
    have htr : pool.tokenReserve - rawOutput feeRate .buy input pool =
        pool.invariantK / (pool.baseReserve + inputAfterFee feeRate input) := by
      unfold rawOutput; ring
    show pool.currentPrice < (pool.baseReserve + inputAfterFee feeRate input) /
      (pool.tokenReserve - rawOutput feeRate .buy input pool)
    rw [hpr, htr, hk, div_div_eq_mul_div, div_lt_div_iff₀ ht (mul_pos hb ht)]
    nlinarith [mul_pos (mul_pos ha hb) ht, mul_pos (mul_pos ha ha) ht]
  · simp only [applyTrade, commit_sell_eq hrejs]
    have hbr : pool.baseReserve - rawOutput feeRate .sell input pool =
        pool.invariantK / (pool.tokenReserve + inputAfterFee feeRate input) := by
      unfold rawOutput; ring
    show (pool.baseReserve - rawOutput feeRate .sell input pool) /
      (pool.tokenReserve + inputAfterFee feeRate input) < pool.currentPrice
    rw [hpr, hbr, hk, div_div, div_lt_div_iff₀ (mul_pos hta hta) ht]
    nlinarith [mul_pos (mul_pos ha hb) ht, mul_pos (mul_pos ha ha) hb]

theorem c3_witness :
    (0:ℚ) ≤ 0 ∧ (0:ℚ) < 1 ∧ ValidPool ⟨1, 1, 1, 1, 0⟩ ∧ (0:ℚ) < 1 ∧
    (⟨1, 1, 1, 1, 0⟩ : PoolState).currentPrice <
      (applyTrade 0 ⟨1, 1, 1, 1, 0⟩ (Direction.buy, 1)).currentPrice ∧
    (applyTrade 0 ⟨1, 1, 1, 1, 0⟩ (Direction.sell, 1)).currentPrice <
      (⟨1, 1, 1, 1, 0⟩ : PoolState).currentPrice := by
  have h0 : (0:ℚ) ≤ 0 := le_refl 0
  have h1 : (0:ℚ) < 1 := by simp
  have hp : ValidPool ⟨1, 1, 1, 1, 0⟩ := by simp
  have h := c3_buy_raises_sell_lowers_price 0 1 ⟨1, 1, 1, 1, 0⟩ h0 h1 hp h1
  exact ⟨h0, h1, hp, h1, h.2.2.1, h.2.2.2⟩

/-- C4: `quote` followed immediately by `commit` with the same
direction and input on the unmodified pool yields the same
`outputAmount` (agreeing also on success and failure). -/
theorem c4_quote_commit_agree (feeRate : ℚ) (d : Direction) (input : ℚ) (pool : PoolState) :
    (quote feeRate d input pool).map Quote.outputAmount =
      (commit feeRate d input pool).map (fun pr => pr.2.outputAmount) := by
  by_cases hrej : quoteRejected feeRate d input pool
  · rw [quote, commit, if_pos hrej, if_pos hrej]
    rfl
  · rw [quote, commit, if_neg hrej, if_neg hrej]
    rfl

/-- C5: a quote fails with `InsufficientLiquidity` exactly when the
input is non-positive or the computed output would exceed the opposite
reserve; such a rejection drops the single trade, leaving the run and
the pool unchanged (it is not fatal and does not enter `Error`). -/
theorem c5_insufficient_liquidity (feeRate : ℚ) (d : Direction) (input : ℚ)
    (pool : PoolState) (run : SimulationRun) :
    (quote feeRate d input pool = .error .insufficientLiquidity ↔
      input ≤ 0 ∨ oppositeReserve pool d < rawOutput feeRate d input pool) ∧
    (input ≤ 0 ∨ oppositeReserve pool d < rawOutput feeRate d input pool →
      processTrade feeRate run pool d input = (run, pool)) := by
  by_cases hrej : quoteRejected feeRate d input pool
  · refine ⟨⟨fun _ => hrej, fun _ => ?_⟩, fun _ => ?_⟩
    · rw [quote, if_pos hrej]
    · rw [processTrade, commit_rejected_eq hrej]
  · refine ⟨⟨fun h => ?_, fun h => absurd h hrej⟩, fun h => absurd h hrej⟩
    rw [quote, if_neg hrej] at h
    exact absurd h (by simp)

theorem c5_witness :
    quote 0 Direction.buy 0 p100 = .error .insufficientLiquidity ∧
    processTrade 0 run0 p100 Direction.buy 0 = (run0, p100) := by
  have h : (0:ℚ) ≤ 0 ∨ oppositeReserve p100 Direction.buy < rawOutput 0 Direction.buy 0 p100 :=
    Or.inl (le_refl 0)
  exact ⟨(c5_insufficient_liquidity 0 Direction.buy 0 p100 run0).1.mpr h,
         (c5_insufficient_liquidity 0 Direction.buy 0 p100 run0).2 h⟩

/-- C6: while the orchestrator is `Running`, no command ever moves the
phase other than to its cyclic successor
(`MarketAnalysis → Social → Trading → Reporting → MarketAnalysis`),
and `pause()` followed by `resume()` restores exactly the state that
was active at pause time — same phase, same elapsed-but-not-expired
phase time. -/
theorem c6_phase_cycle_and_pause_resume (s : SimulationRun)
    (hs : s.status = Status.running) :
    (∀ c : Command, (step s c).currentPhase = s.currentPhase ∨
      (step s c).currentPhase = nextPhase s.currentPhase) ∧
    step (step s Command.pause) Command.resume = s := by
  constructor
  · intro c
    cases c with
    | start speed => simp [step, hs]
    | tick dt => simp [step, hs]
    | advancePhase => simp [step, hs]
    | pause => simp [step, hs]
    | resume => simp [step, hs]
    | stop => simp [step, hs]
    | setSpeed m =>
      simp only [step]
      split <;> simp
    | fail => simp [step, hs]
  · obtain ⟨st, ph, el, sp⟩ := s
    have hs2 : st = Status.running := hs
    subst hs2
    rfl

theorem c6_witness :
    step (step run0 Command.pause) Command.resume = run0 :=
  (c6_phase_cycle_and_pause_resume run0 rfl).2

/-- C7: the state cache never returns a value at a version that
disagrees with the backing store at read time: when the authoritative
version has moved past the cached one, `get` recomputes and returns
the data at the store's current version even though the cached entry's
TTL has not yet expired. -/
theorem c7_version_check_overrides_ttl {α : Type} (now ttl : ℕ)
    (store : BackingStore α) (e : CacheEntry α)
    (hv : e.version ≠ store.version) (httl : now < e.expiresAt) :
    (cacheGet now ttl store (some e)).1 = store.data ∧
    (cacheGet now ttl store (some e)).2.version = store.version := by
  rw [cacheGet]
  rw [if_neg (by simp [hv])]
  exact ⟨rfl, rfl⟩

theorem c7_witness :
    (3 ≠ 4) ∧ (0 < 1000) ∧
    (cacheGet 0 5 (⟨44, 4⟩ : BackingStore ℕ) (some ⟨33, 3, 1000⟩)).1 = 44 ∧
    (cacheGet 0 5 (⟨44, 4⟩ : BackingStore ℕ) (some ⟨33, 3, 1000⟩)).2.version = 4 := by
  have h := c7_version_check_overrides_ttl 0 5 (⟨44, 4⟩ : BackingStore ℕ)
    ⟨33, 3, 1000⟩ (by decide) (by decide)
  exact ⟨by decide, by decide, h.1, h.2⟩

/-- C8 (counterexample): the all-zero distribution, reachable since
every slider may sit at 0, has total weight 0, and the division by the
total then does not produce weights summing to 1 (the origin code
divides by zero; in this exact-arithmetic embedding the sum is 0, in
the JavaScript source it is NaN — in neither case 1). -/
theorem c8_counterexample :
    totalWeight (getNormalizedDistribution ⟨0, 0, 0, 0, 0⟩) ≠ 1 := by
  simp [getNormalizedDistribution, totalWeight]

/-- C8 (amended): for every personality distribution whose total raw
weight is positive, the normalization step divides each weight by the
total and the resulting fractional weights sum to 1. -/
theorem c8_normalized_distribution_sums_to_one (d : PersonalityDistribution)
    (hd : 0 < totalWeight d) :
    totalWeight (getNormalizedDistribution d) = 1 := by
  have ht : totalWeight d ≠ 0 := ne_of_gt hd
  simp only [totalWeight, getNormalizedDistribution] at *
  rw [div_add_div_same, div_add_div_same, div_add_div_same, div_add_div_same,
    div_self ht]

theorem c8_witness :
    0 < totalWeight ⟨1, 0, 0, 0, 0⟩ ∧
    totalWeight (getNormalizedDistribution ⟨1, 0, 0, 0, 0⟩) = 1 := by
  have h : 0 < totalWeight (⟨1, 0, 0, 0, 0⟩ : PersonalityDistribution) := by
    simp [totalWeight]
  exact ⟨h, c8_normalized_distribution_sums_to_one _ h⟩

theorem foldl_addLog_length_le (es : List LogEntry) :
    ∀ l : List LogEntry, l.length ≤ 100 →
      (es.foldl (fun acc x => addLog x acc) l).length ≤ 100 := by
  induction es with
  | nil => intro l hl; simpa using hl
  | cons e es ih =>
    intro l _
    simp only [List.foldl]
    apply ih
    simp only [addLog, List.length_cons, List.length_take]
    omega

/-- C9: the client-side log list is bounded: `addLog` puts the new
entry at the front, keeps at most the 99 most recent previous entries,
so the list holds at most 100 entries after any one call and after any
sequence of calls starting from the empty list. -/
theorem c9_log_list_bounded (e : LogEntry) (prev : List LogEntry)
    (es : List LogEntry) :
    addLog e prev = e :: prev.take 99 ∧
    (addLog e prev).length ≤ 100 ∧
    (es.foldl (fun acc x => addLog x acc) []).length ≤ 100 := by
  refine ⟨rfl, ?_, foldl_addLog_length_le es [] (by simp)⟩
  simp only [addLog, List.length_cons, List.length_take]
  omega

/-- C10 (counterexample): `getInitials` splits on the space character
only, not on general whitespace: on the name `a<TAB>b` it returns
`"A"`, while the first characters of the whitespace-separated words,
uppercased and truncated, give `"AB"`. -/
theorem c10_counterexample :
    getInitials ['a', '\t', 'b'] ≠ initialsOfWhitespaceWords ['a', '\t', 'b'] ∧
    getInitials ['a', '\t', 'b'] = ['A'] ∧
    initialsOfWhitespaceWords ['a', '\t', 'b'] = ['A', 'B'] := by
  refine ⟨?_, ?_, ?_⟩ <;> decide

/-- C10 (amended): `getInitials` is total and returns at most 2
characters: the concatenation of the first character of every
space-separated part of the name (empty parts contributing nothing),
uppercased and truncated to length 2 — well-defined also on empty and
single-word names. -/
theorem c10_initials_bounded_space_words (name : List Char) :
    (getInitials name).length ≤ 2 ∧ getInitials name = initialsOfSpaceWords name := by
  refine ⟨?_, rfl⟩
  exact List.length_take_le 2 _

end Storm


